import Mathlib

/-!
# FileSummariser: a verification development for `Main.cpp`

The program scans a directory tree, or the paths listed in a `.txt` manifest,
for files whose extension is in a fixed allowlist, and prints a report of
file names and sizes followed by a total.

The embedding below follows `Main.cpp` function by function.

* `std::string` is a list of characters (`Str`), one for each byte;
  `fs::path` is the string it was built from, with `/` as the directory
  separator, as on a POSIX system.
* The filesystem is an explicit environment `FS`: the status of every path
  (an error, no such file, or an entry), the lines `std::getline` reads from
  a file, whether a file can be opened for appending, and which paths name
  the same file.  Directories carry their entries as a tree of `Node`s.
* The calls `fs::exists` and `fs::file_size` are the throwing overloads and
  `main` catches nothing: a failed query ends the process (`exitCode = none`).
* The rows appended to the output file are part of the state of the report
  loop: a size read after an append sees the bytes appended so far when the
  path names the output file.
* `double` values are exact dyadic numbers (`Dbl`): every value the program
  computes is an integer rounded to 53 significant bits, divided by a power of
  1024, so that the arithmetic of `humanReadableSize` is exact.
* `uintmax_t` is 64 bits wide: the running total is reduced modulo `2 ^ 64`.
* `main` returns everything the process leaves behind (`Outcome`): its exit
  code, the two output streams, the text appended to the output file and the
  collected list.

Apart from the appends of the run itself the filesystem does not change
during a run.  A directory that resolves can be listed, and the kind of a
listed entry is the one its directory reports; symbolic links are not
modelled.
-/

namespace FileSummariser

/-! ## Strings and paths -/

/-- A `std::string`: a sequence of characters. -/
abbrev Str := List Char

/-- The function `::tolower` in the C locale: only the letters `A` to `Z` change. -/
def tolower (c : Char) : Char :=
  if 65 ≤ c.toNat ∧ c.toNat ≤ 90 then Char.ofNat (c.toNat + 32) else c

/-- The call `std::transform(s.begin(), s.end(), s.begin(), ::tolower)`. -/
def lowerStr (s : Str) : Str := s.map tolower

/-- The function `fs::path::filename()`: what follows the last directory separator. -/
def filename (p : Str) : Str :=
  (p.reverse.takeWhile (fun c => c != '/')).reverse

/-- The function `fs::path::extension()`: the part of the file name that starts at its last
dot, unless the name is `.` or `..`, has no dot, or has its only dot in first
position (`.profile`); in those cases the extension is empty. -/
def extension (p : Str) : Str :=
  let f := filename p
  if f = ['.'] ∨ f = ['.', '.'] then []
  else if '.' ∈ f then
    let suf := (f.reverse.takeWhile (fun c => c != '.')).reverse
    if suf.length + 1 = f.length then [] else '.' :: suf
  else []

/-- The path `parent / name` for a relative `name`: a separator is inserted unless the
parent is empty or already ends with one. -/
def pathJoin (parent name : Str) : Str :=
  if parent = [] then name
  else if parent.getLast? = some '/' then parent ++ name
  else parent ++ '/' :: name

/-- The allowlist built in `main`. -/
def fileTypes : List Str :=
  ["png".toList, "bmp".toList, "dds".toList, "tga".toList,
   "mp4".toList, "avi".toList, "mov".toList, "mkv".toList]

/-- The function `isValidFileType(fileTypes, file)`. -/
def isValidFileType (types : List Str) (file : Str) : Bool :=
  let ext := extension file
  let ext := if ext ≠ [] ∧ ext.head? = some '.' then ext.drop 1 else ext
  let ext := lowerStr ext
  types.contains ext

/-! ## The filesystem -/

/-- An entry of the filesystem.  A regular file has a size in bytes (a
`uintmax_t`), a directory has entries, and `other` stands for every other
kind of file (socket, device, ...). -/
inductive Node where
  | file (name : Str) (size : Nat)
  | dir (name : Str) (children : List Node)
  | other (name : Str)

/-- The name of an entry inside its directory. -/
def Node.name : Node → Str
  | .file n _ => n
  | .dir n _ => n
  | .other n => n

/-- The answer of `is_regular_file()` on an entry. -/
def Node.isRegular : Node → Bool
  | .file _ _ => true
  | _ => false

/-- The answer of a status query on a path.  The query fails (`error`) when
the operating system reports anything but success or a missing file, for
instance a name that is too long or a directory that cannot be searched; the
throwing overloads of `std::filesystem` then throw. -/
inductive Status where
  | error
  | missing
  | found (node : Node)

/-- The environment of a run. -/
structure FS where
  /-- The status of a path. -/
  resolve : Str → Status
  /-- The lines that successive `std::getline` calls read from a file. -/
  lines : Str → List Str
  /-- Tells whether `std::ofstream(path, std::ios::app)` opens. -/
  canAppend : Str → Bool
  /-- Tells whether two paths name the same file. -/
  sameFile : Str → Str → Bool

/-- Names of directory entries are not empty and hold no separator. -/
def validName (n : Str) : Bool := n != [] && !n.contains '/'

mutual
/-- Every entry of a forest, at every depth, has a valid name. -/
def validNames : List Node → Bool
  | [] => true
  | c :: cs => validNode c && validNames cs
/-- Every entry of a tree, at every depth, has a valid name. -/
def validNode : Node → Bool
  | .file n _ => validName n
  | .dir n cs => validName n && validNames cs
  | .other n => validName n
end

mutual
/-- The entries `fs::recursive_directory_iterator(p)` yields for a directory
`p` with the given entries: each entry, followed by the content of the entry
when it is a directory. -/
def walk (p : Str) : List Node → List (Str × Node)
  | [] => []
  | c :: cs => walkNode p c ++ walk p cs
/-- The entries yielded for one entry of `p`. -/
def walkNode (p : Str) : Node → List (Str × Node)
  | .file n s => [(pathJoin p n, .file n s)]
  | .dir n cs => (pathJoin p n, .dir n cs) :: walk (pathJoin p n) cs
  | .other n => [(pathJoin p n, .other n)]
end

/-- The entries `fs::directory_iterator(p)` yields: the immediate entries. -/
def listDir (p : Str) (cs : List Node) : List (Str × Node) :=
  cs.map (fun c => (pathJoin p c.name, c))

/-- The body of both directory loops: push the entry when it is a regular file
of a valid type. -/
def pushIfValid (filePaths : List Str) (entry : Str × Node) : List Str :=
  if entry.2.isRegular && isValidFileType fileTypes entry.1 then
    filePaths ++ [entry.1]
  else filePaths

/-- The directory branch of `main`. -/
def collectDir (path : Str) (cs : List Node) : List Str :=
  (walk path cs).foldl pushIfValid []

/-- One iteration of the manifest loop of `main`: the list after the line, or
`none` when `fs::exists(filePath)` throws. -/
def processLine (fs : FS) (filePaths : List Str) (line : Str) : Option (List Str) :=
  if line = [] then some filePaths
  else
    match fs.resolve line with
    | .error => none
    | .missing => some filePaths
    | .found (.dir _ cs) => some ((listDir line cs).foldl pushIfValid filePaths)
    | .found (.file _ _) =>
        some (if isValidFileType fileTypes line then filePaths ++ [line] else filePaths)
    | .found (.other _) => some filePaths

/-- The manifest loop of `main` from a given list; it stops at the first line
on which `fs::exists` throws. -/
def manifestLoop (fs : FS) : List Str → List Str → Option (List Str)
  | [], filePaths => some filePaths
  | line :: rest, filePaths =>
      match processLine fs filePaths line with
      | none => none
      | some filePaths => manifestLoop fs rest filePaths

/-- The manifest loop of `main`: the collected list, or `none` when the loop
was left by an exception. -/
def collectManifest (fs : FS) (ls : List Str) : Option (List Str) :=
  manifestLoop fs ls []

/-! ## Sizes -/

/-- A non-negative `double` held exactly: the value `mant / 2 ^ scale`. -/
structure Dbl where
  mant : Nat
  scale : Nat

/-- The rational number a `Dbl` stands for. -/
def Dbl.toRat (d : Dbl) : ℚ := (d.mant : ℚ) / 2 ^ d.scale

/-- The test `size >= 1024.0`. -/
def Dbl.ge1024 (d : Dbl) : Bool := decide (1024 * 2 ^ d.scale ≤ d.mant)

/-- The update `size /= 1024.0`, exact in binary floating point. -/
def Dbl.div1024 (d : Dbl) : Dbl := ⟨d.mant, d.scale + 10⟩

/-- How many low bits of `n` do not fit in a 53-bit significand. -/
def excessBits : Nat → Nat → Nat
  | 0, _ => 0
  | fuel + 1, n => if n < 2 ^ 53 then 0 else 1 + excessBits fuel (n / 2)

/-- The conversion `static_cast<double>(bytes)` for a 64-bit `bytes`: exact below `2 ^ 53`,
rounded to 53 significant bits (to nearest, ties to even) above. -/
def toDouble (bytes : Nat) : Dbl :=
  let e := excessBits 11 bytes
  let q := bytes / 2 ^ e
  let r := bytes % 2 ^ e
  let up := decide (2 ^ e < 2 * r) || (decide (2 * r = 2 ^ e) && q % 2 == 1)
  ⟨(if up then q + 1 else q) * 2 ^ e, 0⟩

/-- The array `units` of `humanReadableSize`. -/
def units : List Str := ["B".toList, "KB".toList, "MB".toList, "GB".toList]

/-- The loop of `humanReadableSize`.  The first argument bounds the number of
iterations; the loop leaves through its own guard (`hrLoop_fuel`). -/
def hrLoop : Nat → Dbl → Nat → Dbl × Nat
  | 0, size, unitIndex => (size, unitIndex)
  | fuel + 1, size, unitIndex =>
      if size.ge1024 && decide (unitIndex < units.length - 1) then
        hrLoop fuel size.div1024 (unitIndex + 1)
      else (size, unitIndex)

/-- The value times one hundred, rounded to the nearest integer, ties to
even: the digits that `std::fixed << std::setprecision(2)` prints. -/
def cents (d : Dbl) : Nat :=
  let q := d.mant * 100 / 2 ^ d.scale
  let r := d.mant * 100 % 2 ^ d.scale
  if decide (2 ^ d.scale < 2 * r) || (decide (2 * r = 2 ^ d.scale) && q % 2 == 1)
  then q + 1 else q

/-- The text of `out << std::fixed << std::setprecision(2) << size`. -/
def fixed2 (d : Dbl) : Str :=
  let c := cents d
  Nat.toDigits 10 (c / 100) ++
    ['.', Nat.digitChar (c % 100 / 10), Nat.digitChar (c % 10)]

/-- The function `humanReadableSize(bytes)`. -/
def humanReadableSize (bytes : Nat) : Str :=
  let r := hrLoop (units.length - 1) (toDouble bytes) 0
  fixed2 r.1 ++ ' ' :: units.getD r.2 []

/-! ## Arguments -/

/-- The three variables the argument loop of `main` sets. -/
structure Config where
  inputFile : Str
  outputFile : Str
  summaryOnly : Bool

/-- The branches of the argument loop that consume one argument. -/
def parseFlag (arg : Str) (c : Config) : Config :=
  if arg = "--summary-only".toList then { c with summaryOnly := true }
  else if c.inputFile = [] then { c with inputFile := arg }
  else c

/-- The argument loop of `main`, over `argv[1]`, `argv[2]`, ... -/
def parseArgs : List Str → Config → Config
  | [], c => c
  | [arg], c => parseFlag arg c
  | arg :: next :: rest, c =>
      if arg = "--output".toList then parseArgs rest { c with outputFile := next }
      else parseArgs (next :: rest) (parseFlag arg c)

/-! ## The report -/

/-- The conversion `static_cast<int>(n)` for a 32-bit `int`. -/
def toInt32 (n : Nat) : Int :=
  if n % 2 ^ 32 < 2 ^ 31 then (n % 2 ^ 32 : Nat) else ((n % 2 ^ 32 : Nat) : Int) - 2 ^ 32

/-- The loop that computes `maxPathLength`, which becomes `columnWidth`. -/
def columnWidth (filePaths : List Str) : Int :=
  filePaths.foldl
    (fun maxPathLength path =>
      let length := toInt32 path.length
      if length > maxPathLength then length else maxPathLength) 0

/-- The output `std::left << std::setw(w) << s`: fill on the right up to `w` characters;
a longer string is written whole. -/
def setwLeft (w : Int) (s : Str) : Str :=
  s ++ List.replicate (w - s.length).toNat ' '

/-- The function `getFileData(file)`, called when `appended` has been written
at the end of `outputFile`; `none` when `fs::file_size` throws, which it does
for a path that is not an existing regular file.  The size is the one the
file had before the run, and the bytes appended since are added when the
path names the output file. -/
def getFileData (fs : FS) (outputFile appended : Str) (file : Str) : Option (Str × Nat) :=
  match fs.resolve file with
  | .found (.file _ size) =>
      some (filename file,
        if fs.sameFile file outputFile then size + appended.length else size)
  | _ => none

/-- The operator `<<` for `fs::path`: the string between double quotes, with a
backslash before each double quote and backslash. -/
def quoted (p : Str) : Str :=
  [Char.ofNat 34] ++
    p.flatMap (fun c => if c = Char.ofNat 34 ∨ c = Char.ofNat 92 then [Char.ofNat 92, c] else [c]) ++
    [Char.ofNat 34]

/-- What the report loop has produced so far. -/
structure Rep where
  out : Str
  err : Str
  appended : Str
  total : Nat
  thrown : Bool

/-- The body of the report loop for one path whose data was read.  The output
file is opened with `std::ios::app`: what is written goes after what the file
holds, which is its content before the run followed by `appended`. -/
def reportRow (cfg : Config) (fs : FS) (w : Int) (st : Rep) (filename : Str) (filesize : Nat) :
    Rep :=
  let st := { st with total := (st.total + filesize) % 2 ^ 64 }
  if !cfg.summaryOnly then
    let outline := setwLeft w filename ++ humanReadableSize filesize
    let st := { st with out := st.out ++ outline ++ ['\n'] }
    if cfg.outputFile ≠ [] then
      if fs.canAppend cfg.outputFile then
        { st with appended := st.appended ++ outline ++ ['\n'] }
      else
        { st with err := st.err ++ "Error: Could not open file ".toList ++
            quoted cfg.outputFile ++ " for writing.\n".toList }
    else st
  else st

/-- The report loop.  An exception of `getFileData` is not caught: the loop,
and the process, stop there. -/
def reportLoop (cfg : Config) (fs : FS) (w : Int) : List Str → Rep → Rep
  | [], st => st
  | path :: rest, st =>
      match getFileData fs cfg.outputFile st.appended path with
      | none => { st with thrown := true }
      | some (filename, filesize) =>
          reportLoop cfg fs w rest (reportRow cfg fs w st filename filesize)

/-- Header and separator, written unless `summaryOnly`. -/
def header (cfg : Config) (w : Int) : Str :=
  if !cfg.summaryOnly then
    setwLeft w "\nFilename".toList ++ "Size (bytes)".toList ++ ['\n'] ++
      (List.replicate (w + 12).toNat '-' ++ ['\n'])
  else []

/-- The last line of the report. -/
def totalLine (count total : Nat) : Str :=
  "\nFiles found: ".toList ++ Nat.toDigits 10 count ++
    " Total file size: ".toList ++ humanReadableSize total

/-- What a run leaves behind.  `exitCode` is `none` when the process was
terminated by an uncaught exception; `out` and `err` are what the program
wrote to `std::cout` and `std::cerr` (when the process is terminated, what
was written and not yet flushed may never be delivered, and the message of
the runtime is left out); `files` is the list handed to the report, empty
when the run ends before the report. -/
structure Outcome where
  exitCode : Option Nat
  out : Str
  err : Str
  appended : Str
  files : List Str

/-- The part of `main` that follows the collection of `filePaths`. -/
def report (cfg : Config) (fs : FS) (filePaths : List Str) : Outcome :=
  let w := columnWidth filePaths
  let st := reportLoop cfg fs w filePaths ⟨header cfg w, [], [], 0, false⟩
  if st.thrown then ⟨none, st.out, st.err, st.appended, filePaths⟩
  else ⟨some 0, st.out ++ totalLine filePaths.length st.total, st.err, st.appended, filePaths⟩

/-- An early `return 1` of `main` after a message on the error stream. -/
def fail (msg : Str) : Outcome := ⟨some 1, [], msg, [], []⟩

/-- The end of a run by an exception thrown before the report (the message
of the runtime on the error stream is left out). -/
def aborted : Outcome := ⟨none, [], [], [], []⟩

/-- The variables `inputFile`, `outputFile` and `summaryOnly` after the
argument loop. -/
def config (argv : List Str) : Config := parseArgs (argv.drop 1) ⟨[], [], false⟩

/-- The function `main`, on the arguments `argv` and the filesystem `fs`. -/
def main (argv : List Str) (fs : FS) : Outcome :=
  let cfg := config argv
  let path := cfg.inputFile
  if path = [] then fail "Please provide a directory or file path\n".toList
  else
    match fs.resolve path with
    | .error => aborted
    | .missing => fail "File path does not exist.\n".toList
    | .found (.dir _ cs) => report cfg fs (collectDir path cs)
    | .found (.file _ _) =>
        if lowerStr (extension path) ≠ ".txt".toList then
          fail "Input file must be of type .txt".toList
        else
          match collectManifest fs (fs.lines path) with
          | none => aborted
          | some filePaths => report cfg fs filePaths
    | .found (.other _) => fail "Filepath could not be determined.\n".toList

/-- The content of the output file after a run, given its content before:
the file is opened with `std::ios::app` for every write, so that what the
run wrote stands after what the file held. -/
def fileAfter (before : Str) (r : Outcome) : Str := before ++ r.appended

/-! ## Notions of the specification -/

mutual
/-- The number of regular files, at any depth of a forest, whose name
satisfies `q`. -/
def countFiles (q : Str → Bool) : List Node → Nat
  | [] => 0
  | c :: cs => countFilesNode q c + countFiles q cs
/-- The number of regular files, at any depth of a tree, whose name
satisfies `q`. -/
def countFilesNode (q : Str → Bool) : Node → Nat
  | .file n _ => if q n then 1 else 0
  | .dir _ cs => countFiles q cs
  | .other _ => 0
end

/-- The name has an extension of the allowlist. -/
def matching (name : Str) : Bool := isValidFileType fileTypes name

mutual
/-- The paths of the regular files with a matching name, at any depth of the
directory `p` with the given entries. -/
def matchingPaths (p : Str) : List Node → List Str
  | [] => []
  | c :: cs => matchingPathsNode p c ++ matchingPaths p cs
/-- The paths of the regular files with a matching name in one entry of `p`. -/
def matchingPathsNode (p : Str) : Node → List Str
  | .file n _ => if matching n then [pathJoin p n] else []
  | .dir n cs => matchingPaths (pathJoin p n) cs
  | .other _ => []
end

/-- The regular files with a matching name among the immediate entries of the
directory `p`. -/
def immediateMatching (p : Str) (cs : List Node) : List Str :=
  (cs.filter (fun c => c.isRegular && matching c.name)).map (fun c => pathJoin p c.name)

/-- The size the regular file at a path has before the run (0 when there is
none). -/
def sizeAt (fs : FS) (q : Str) : Nat :=
  match fs.resolve q with
  | .found (.file _ size) => size
  | _ => 0

/-- The sum of the sizes of the files of a list of paths, with repetitions. -/
def totalSize (fs : FS) (paths : List Str) : Nat := (paths.map (sizeAt fs)).sum

/-- The row of a path, with the size the file has before the run: its file
name filled up to the width `w`, the readable size, and a newline. -/
def rowText (fs : FS) (w : Int) (q : Str) : Str :=
  setwLeft w (filename q) ++ humanReadableSize (sizeAt fs q) ++ ['\n']

/-- The size query on the path succeeds: the path is an existing regular
file. -/
def isRegularPath (fs : FS) (q : Str) : Bool :=
  match fs.resolve q with
  | .found (.file _ _) => true
  | _ => false

/-- Every path of the list is an existing regular file. -/
def AllRegular (fs : FS) (paths : List Str) : Prop :=
  ∀ q ∈ paths, isRegularPath fs q = true

/-- The entries the report loop gets through: those before the first one
whose size query throws. -/
def processed (fs : FS) (paths : List Str) : List Str :=
  paths.takeWhile (isRegularPath fs)

/-- The run appends its rows to the output file: rows are made, an output
path was given, and the file opens. -/
def appending (cfg : Config) (fs : FS) : Bool :=
  !cfg.summaryOnly && (cfg.outputFile != [] && fs.canAppend cfg.outputFile)

/-- The size read for a path once `written` bytes were appended to the output
file: those bytes count when the path names the output file. -/
def sizeRead (fs : FS) (outputFile : Str) (written : Nat) (q : Str) : Nat :=
  if fs.sameFile q outputFile then sizeAt fs q + written else sizeAt fs q

/-- The sizes read and the rows made for a list of paths, in the order of the
list, from the moment `written` bytes were appended to the output file.  When
`grow` is set each row is appended to the output file in its turn. -/
def reads (fs : FS) (outputFile : Str) (w : Int) (grow : Bool) :
    Nat → List Str → List (Nat × Str)
  | _, [] => []
  | written, q :: qs =>
      let size := sizeRead fs outputFile written q
      let row := setwLeft w (filename q) ++ humanReadableSize size ++ ['\n']
      (size, row) :: reads fs outputFile w grow
        (if grow then written + row.length else written) qs

/-- The sizes the report reads for the entries it gets through. -/
def sizesRead (cfg : Config) (fs : FS) (paths : List Str) : List Nat :=
  (reads fs cfg.outputFile (columnWidth paths) (appending cfg fs) 0
    (processed fs paths)).map (fun r => r.1)

/-- The rows the report makes for the entries it gets through. -/
def rowsMade (cfg : Config) (fs : FS) (paths : List Str) : List Str :=
  (reads fs cfg.outputFile (columnWidth paths) (appending cfg fs) 0
    (processed fs paths)).map (fun r => r.2)

/-- Some name of the path, between separators, has more than 255 characters,
the longest a file name can be. -/
def nameTooLong : Str → Nat → Bool
  | [], run => decide (255 < run)
  | c :: cs, run =>
      if c = '/' then decide (255 < run) || nameTooLong cs 0
      else nameTooLong cs (run + 1)

/-- The entries of the directory `media/sub/deep`. -/
def deepEntries : List Node :=
  [.file "c.bmp".toList 1024, .file "d.doc".toList 7]

/-- The entries of the directory `media/sub`. -/
def subEntries : List Node :=
  [.file "b.MKV".toList 1024, .dir "deep".toList deepEntries]

/-- The entries of the directory `media`: three matching files of 1024 bytes
each, at depths one, two and three, and two files of other types. -/
def mediaEntries : List Node :=
  [.file "a.png".toList 1024, .file "notes.txt".toList 10, .dir "sub".toList subEntries]

/-- The entries of the directory `vault`: a file, and a directory `locked`
that can be listed but not searched. -/
def vaultEntries : List Node :=
  [.file "a.png".toList 1024, .dir "locked".toList [.file "b.png".toList 2048]]

/-- A path of 304 characters: a name of 300 letters `x` and `.png`.  No file
has a name that long. -/
def longPath : Str := List.replicate 300 'x' ++ ".png".toList

/-- A filesystem with:
* the directory `media`;
* the directory `vault`, where the status of `vault/locked/b.png` cannot be
  queried;
* the files `a.png` (1024 bytes) and `out.png` (5 bytes), and the sparse file
  `big.mkv` of `2 ^ 62` bytes;
* the manifests `list.txt`, `big.txt`, `both.txt` and `bad.txt`;
* the device `tty`.
The status query fails on a path with a name of more than 255 characters.
Only `report.log` and `out.png` can be opened for appending, and two paths
name the same file when they are equal. -/
def demoFS : FS where
  resolve := fun p =>
    if nameTooLong p 0 then .error
    else if p = "media".toList then .found (.dir "media".toList mediaEntries)
    else if p = "media/a.png".toList then .found (.file "a.png".toList 1024)
    else if p = "media/notes.txt".toList then .found (.file "notes.txt".toList 10)
    else if p = "media/sub".toList then .found (.dir "sub".toList subEntries)
    else if p = "media/sub/b.MKV".toList then .found (.file "b.MKV".toList 1024)
    else if p = "media/sub/deep".toList then .found (.dir "deep".toList deepEntries)
    else if p = "media/sub/deep/c.bmp".toList then .found (.file "c.bmp".toList 1024)
    else if p = "media/sub/deep/d.doc".toList then .found (.file "d.doc".toList 7)
    else if p = "vault".toList then .found (.dir "vault".toList vaultEntries)
    else if p = "vault/a.png".toList then .found (.file "a.png".toList 1024)
    else if p = "vault/locked".toList then
      .found (.dir "locked".toList [.file "b.png".toList 2048])
    else if p = "vault/locked/b.png".toList then .error
    else if p = "a.png".toList then .found (.file "a.png".toList 1024)
    else if p = "out.png".toList then .found (.file "out.png".toList 5)
    else if p = "list.txt".toList then .found (.file "list.txt".toList 40)
    else if p = "big.txt".toList then .found (.file "big.txt".toList 32)
    else if p = "both.txt".toList then .found (.file "both.txt".toList 14)
    else if p = "bad.txt".toList then .found (.file "bad.txt".toList 317)
    else if p = "big.mkv".toList then .found (.file "big.mkv".toList (2 ^ 62))
    else if p = "tty".toList then .found (.other "tty".toList)
    else .missing
  lines := fun p =>
    if p = "list.txt".toList then
      ["".toList, "media".toList, "missing.png".toList, "media/a.png".toList]
    else if p = "big.txt".toList then
      ["big.mkv".toList, "big.mkv".toList, "big.mkv".toList, "big.mkv".toList]
    else if p = "both.txt".toList then ["a.png".toList, "out.png".toList]
    else if p = "bad.txt".toList then [longPath, "media/a.png".toList]
    else []
  canAppend := fun p => decide (p = "report.log".toList) || decide (p = "out.png".toList)
  sameFile := fun a b => decide (a = b)

set_option maxRecDepth 100000

/-! ## Lemmas on strings and paths -/

/-- The longest run that satisfies `q` stops at the first element that does not. -/
theorem takeWhile_stop {α : Type} (q : α → Bool) (xs ys : List α) (c : α)
    (hxs : ∀ a ∈ xs, q a = true) (hc : q c = false) :
    (xs ++ c :: ys).takeWhile q = xs := by
  induction xs with
  | nil => simp [List.takeWhile, hc]
  | cons x xs ih =>
    have hx : q x = true := hxs x (List.mem_cons_self _ _)
    have := ih (fun a ha => hxs a (List.mem_cons_of_mem _ ha))
    simp [List.takeWhile, hx, this]

/-- A list whose elements all satisfy `q` is its own longest run. -/
theorem takeWhile_all {α : Type} (q : α → Bool) (xs : List α)
    (hxs : ∀ a ∈ xs, q a = true) : xs.takeWhile q = xs := by
  induction xs with
  | nil => rfl
  | cons x xs ih =>
    have hx : q x = true := hxs x (List.mem_cons_self _ _)
    have := ih (fun a ha => hxs a (List.mem_cons_of_mem _ ha))
    simp [List.takeWhile, hx, this]

/-- The characters of a string without `c` differ from `c`. -/
theorem ne_of_not_mem {c : Char} {n : Str} (h : c ∉ n) :
    ∀ a ∈ n.reverse, (a != c) = true := by
  intro a ha
  have ha2 : a ∈ n := List.mem_reverse.mp ha
  simp only [bne_iff_ne, ne_eq]
  rintro rfl
  exact h ha2

/-- The file name of a name without separator is the name. -/
theorem filename_of_not_mem (n : Str) (h : '/' ∉ n) : filename n = n := by
  unfold filename
  rw [takeWhile_all _ _ (ne_of_not_mem h), List.reverse_reverse]

/-- The file name of `d/n` is `n`. -/
theorem filename_append_sep (d n : Str) (h : '/' ∉ n) :
    filename (d ++ '/' :: n) = n := by
  unfold filename
  have : (d ++ '/' :: n).reverse = n.reverse ++ '/' :: d.reverse := by simp
  rw [this, takeWhile_stop _ _ _ _ (ne_of_not_mem h) (by decide), List.reverse_reverse]

/-- A string whose last character is `c` is some `d` followed by `c`. -/
theorem eq_append_of_getLast? (p : Str) (c : Char) (h : p.getLast? = some c) :
    ∃ d, p = d ++ [c] := by
  refine ⟨p.dropLast, ?_⟩
  have hne : p ≠ [] := by rintro rfl; simp at h
  have := List.dropLast_append_getLast hne
  rw [List.getLast?_eq_getLast _ hne] at h
  rw [← Option.some.inj h, this]

/-- The file name of an entry of a directory is the name of the entry. -/
theorem filename_pathJoin (p n : Str) (h : '/' ∉ n) : filename (pathJoin p n) = n := by
  unfold pathJoin
  split_ifs with h1 h2
  · exact filename_of_not_mem n h
  · obtain ⟨d, rfl⟩ := eq_append_of_getLast? p '/' h2
    have : d ++ ['/'] ++ n = d ++ '/' :: n := by simp
    rw [this]; exact filename_append_sep d n h
  · exact filename_append_sep p n h

/-- The extension is a function of the file name. -/
theorem extension_eq_of_filename (p q : Str) (h : filename p = filename q) :
    extension p = extension q := by
  unfold extension; rw [h]

/-- The extension of an entry of a directory is the extension of its name. -/
theorem extension_pathJoin (p n : Str) (h : '/' ∉ n) :
    extension (pathJoin p n) = extension n := by
  apply extension_eq_of_filename
  rw [filename_pathJoin p n h, filename_of_not_mem n h]

/-- An extension is empty or starts with a dot. -/
theorem extension_head (p : Str) : extension p = [] ∨ ∃ s, extension p = '.' :: s := by
  unfold extension
  simp only
  split_ifs
  · exact Or.inl rfl
  · exact Or.inl rfl
  · exact Or.inr ⟨_, rfl⟩
  · exact Or.inl rfl

/-- Only the dot is mapped to the dot. -/
theorem tolower_eq_dot (c : Char) (h : tolower c = '.') : c = '.' := by
  unfold tolower at h
  split_ifs at h with hc
  · exfalso
    obtain ⟨h1, h2⟩ := hc
    have hv : (Char.ofNat (c.toNat + 32)).toNat = 46 := by rw [h]; rfl
    interval_cases hn : c.toNat <;> simp at hv
  · exact h

/-- Only the separator is mapped to the separator. -/
theorem tolower_eq_sep (c : Char) (h : tolower c = '/') : c = '/' := by
  unfold tolower at h
  split_ifs at h with hc
  · exfalso
    obtain ⟨h1, h2⟩ := hc
    have hv : (Char.ofNat (c.toNat + 32)).toNat = 47 := by rw [h]; rfl
    interval_cases hn : c.toNat <;> simp at hv
  · exact h

/-- The test of `isValidFileType` on the extension. -/
theorem isValidFileType_eq (types : List Str) (file : Str) :
    isValidFileType types file = types.contains (lowerStr ((extension file).drop 1)) := by
  unfold isValidFileType
  rcases extension_head file with h | ⟨s, h⟩
  · simp [h]
  · simp [h]

/-- Below `2 ^ 53` the conversion to `double` is exact. -/
theorem toDouble_exact (n : Nat) (h : n < 2 ^ 53) : toDouble n = ⟨n, 0⟩ := by
  have he : excessBits 11 n = 0 := by
    unfold excessBits
    rw [if_pos h]
  unfold toDouble
  simp [he, Nat.mod_one]

/-- The loop of `humanReadableSize` leaves through its guard: more fuel than
the number of units left changes nothing. -/
theorem hrLoop_fuel (fuel : Nat) (size : Dbl) (unitIndex : Nat)
    (h : units.length - 1 - unitIndex ≤ fuel) :
    hrLoop fuel size unitIndex = hrLoop (units.length - 1 - unitIndex) size unitIndex := by
  induction fuel generalizing size unitIndex with
  | zero =>
    have : units.length - 1 - unitIndex = 0 := by omega
    rw [this]
  | succ f ih =>
    by_cases hu : unitIndex < units.length - 1
    · have hk : units.length - 1 - unitIndex = (units.length - 1 - (unitIndex + 1)) + 1 := by
        omega
      rw [hk]
      unfold hrLoop
      by_cases hg : size.ge1024 = true
      · simp only [hg, hu, decide_True, Bool.and_self, if_true]
        exact ih _ _ (by omega)
      · simp [hg]
    · have hk : units.length - 1 - unitIndex = 0 := by omega
      rw [hk]
      unfold hrLoop
      simp [hu]

/-- The number of divisions by 1024 that `humanReadableSize` performs. -/
theorem hrLoop_exact (n : Nat) :
    hrLoop 3 ⟨n, 0⟩ 0 =
      if n < 1024 then (⟨n, 0⟩, 0)
      else if n < 1048576 then (⟨n, 10⟩, 1)
      else if n < 1073741824 then (⟨n, 20⟩, 2)
      else (⟨n, 30⟩, 3) := by
  have hu : units.length - 1 = 3 := by decide
  simp only [hrLoop, Dbl.ge1024, Dbl.div1024, hu]
  norm_num
  split_ifs <;> first | rfl | (exfalso; omega)

/-- The digits printed are the value rounded to the nearest hundredth. -/
theorem cents_nearest (d : Dbl) : |(cents d : ℚ) - 100 * d.toRat| ≤ 1 / 2 := by
  have hD : (0 : ℚ) < 2 ^ d.scale := by positivity
  have hdiv : d.mant * 100 = 2 ^ d.scale * (d.mant * 100 / 2 ^ d.scale) +
      d.mant * 100 % 2 ^ d.scale := (Nat.div_add_mod _ _).symm
  have hlt : d.mant * 100 % 2 ^ d.scale < 2 ^ d.scale := Nat.mod_lt _ (by positivity)
  set q := d.mant * 100 / 2 ^ d.scale with hq
  set r := d.mant * 100 % 2 ^ d.scale with hr
  have hval : 100 * d.toRat = (q : ℚ) + (r : ℚ) / 2 ^ d.scale := by
    unfold Dbl.toRat
    have : ((d.mant : ℚ) * 100) = 2 ^ d.scale * q + r := by exact_mod_cast hdiv
    field_simp
    linarith
  have hr0 : (0 : ℚ) ≤ (r : ℚ) / 2 ^ d.scale := by positivity
  have hr1 : (r : ℚ) / 2 ^ d.scale < 1 := by
    rw [div_lt_one hD]; exact_mod_cast hlt
  unfold cents
  simp only [← hq, ← hr]
  split_ifs with hup
  · have h2 : 2 ^ d.scale ≤ 2 * r := by
      simp only [Bool.or_eq_true, decide_eq_true_eq, Bool.and_eq_true] at hup
      rcases hup with h | ⟨h, _⟩ <;> omega
    have h3 : (1 : ℚ) / 2 ≤ (r : ℚ) / 2 ^ d.scale := by
      rw [le_div_iff₀ hD]
      have : ((2 ^ d.scale : Nat) : ℚ) ≤ ((2 * r : Nat) : ℚ) := by exact_mod_cast h2
      push_cast at this
      linarith
    rw [hval, abs_le]
    push_cast
    constructor <;> linarith
  · have h2 : 2 * r ≤ 2 ^ d.scale := by
      simp only [Bool.or_eq_true, decide_eq_true_eq, Bool.and_eq_true, not_or, not_and] at hup
      omega
    have h3 : (r : ℚ) / 2 ^ d.scale ≤ 1 / 2 := by
      rw [div_le_iff₀ hD]
      have : ((2 * r : Nat) : ℚ) ≤ ((2 ^ d.scale : Nat) : ℚ) := by exact_mod_cast h2
      push_cast at this
      linarith
    rw [hval, abs_le]
    constructor <;> linarith

/-- C2. For a byte count `n` below `2 ^ 53`, `humanReadableSize n` is the value
`n / 1024 ^ k` printed with two decimals (the integer part, a dot and two
digits, for the nearest hundredth), one space and the unit of index `k`, where
`k` is 0 below 1024, 1 below `1024 ^ 2`, 2 below `1024 ^ 3` and 3 from there on,
also from `1024 ^ 4` on.  The sizes 0, 1023, 1024, 1048576 and 1073741824 give
`0.00 B`, `1023.00 B`, `1.00 KB`, `1.00 MB` and `1.00 GB`. -/
theorem humanReadableSize_units :
    (∀ n : Nat, n < 2 ^ 53 →
      ∃ (k : Nat) (v : Dbl),
        k = (if n < 1024 then 0 else if n < 1024 ^ 2 then 1
              else if n < 1024 ^ 3 then 2 else 3) ∧
        v.toRat = (n : ℚ) / 1024 ^ k ∧
        hrLoop (units.length - 1) (toDouble n) 0 = (v, k) ∧
        |(cents v : ℚ) - 100 * ((n : ℚ) / 1024 ^ k)| ≤ 1 / 2 ∧
        humanReadableSize n =
          Nat.toDigits 10 (cents v / 100) ++
            ['.', Nat.digitChar (cents v % 100 / 10), Nat.digitChar (cents v % 10)] ++
            [' '] ++ units.getD k []) ∧
    units = ["B".toList, "KB".toList, "MB".toList, "GB".toList] ∧
    humanReadableSize 0 = "0.00 B".toList ∧
    humanReadableSize 1023 = "1023.00 B".toList ∧
    humanReadableSize 1024 = "1.00 KB".toList ∧
    humanReadableSize 1048576 = "1.00 MB".toList ∧
    humanReadableSize 1073741824 = "1.00 GB".toList := by
  refine ⟨?_, rfl, by decide, by decide, by decide, by decide, by decide⟩
  intro n hn
  have hu : units.length - 1 = 3 := by decide
  have hloop := hrLoop_exact n
  by_cases h1 : n < 1024
  · refine ⟨0, ⟨n, 0⟩, by simp [h1], by simp [Dbl.toRat], ?_, ?_, ?_⟩
    · rw [hu, toDouble_exact n hn, hloop]; simp [h1]
    · have := cents_nearest ⟨n, 0⟩
      simpa [Dbl.toRat] using this
    · unfold humanReadableSize
      rw [hu, toDouble_exact n hn, hloop]
      simp [h1, fixed2]
  · by_cases h2 : n < 1048576
    · refine ⟨1, ⟨n, 10⟩, by norm_num [h1, h2], by simp [Dbl.toRat]; norm_num, ?_, ?_, ?_⟩
      · rw [hu, toDouble_exact n hn, hloop]; simp [h1, h2]
      · have := cents_nearest ⟨n, 10⟩
        simp only [Dbl.toRat] at this
        norm_num at this ⊢
        exact this
      · unfold humanReadableSize
        rw [hu, toDouble_exact n hn, hloop]
        simp [h1, h2, fixed2]
    · by_cases h3 : n < 1073741824
      · refine ⟨2, ⟨n, 20⟩, by norm_num [h1, h2, h3], by simp [Dbl.toRat]; norm_num,
          ?_, ?_, ?_⟩
        · rw [hu, toDouble_exact n hn, hloop]; simp [h1, h2, h3]
        · have := cents_nearest ⟨n, 20⟩
          simp only [Dbl.toRat] at this
          norm_num at this ⊢
          exact this
        · unfold humanReadableSize
          rw [hu, toDouble_exact n hn, hloop]
          simp [h1, h2, h3, fixed2]
      · refine ⟨3, ⟨n, 30⟩, by norm_num [h1, h2, h3], by simp [Dbl.toRat]; norm_num,
          ?_, ?_, ?_⟩
        · rw [hu, toDouble_exact n hn, hloop]; simp [h1, h2, h3]
        · have := cents_nearest ⟨n, 30⟩
          simp only [Dbl.toRat] at this
          norm_num at this ⊢
          exact this
        · unfold humanReadableSize
          rw [hu, toDouble_exact n hn, hloop]
          simp [h1, h2, h3, fixed2]

/-! ## Collection -/

/-- The directory loops append the paths of the entries that pass the test. -/
theorem foldl_pushIfValid (es : List (Str × Node)) (acc : List Str) :
    es.foldl pushIfValid acc =
      acc ++ (es.filter (fun e => e.2.isRegular && isValidFileType fileTypes e.1)).map
        (fun e => e.1) := by
  induction es generalizing acc with
  | nil => simp
  | cons e es ih =>
    rw [List.foldl_cons, ih]
    unfold pushIfValid
    by_cases h : (e.2.isRegular && isValidFileType fileTypes e.1) = true
    · simp [h, List.filter_cons]
    · simp [h, List.filter_cons]

/-- The type test on the path of an entry is the test on its name. -/
theorem isValidFileType_pathJoin (p n : Str) (h : '/' ∉ n) :
    isValidFileType fileTypes (pathJoin p n) = matching n := by
  unfold matching
  rw [isValidFileType_eq, isValidFileType_eq, extension_pathJoin p n h]

/-- A valid name holds no separator. -/
theorem not_mem_of_validName (n : Str) (h : validName n = true) : '/' ∉ n := by
  unfold validName at h
  simp only [Bool.and_eq_true, Bool.not_eq_true', bne_iff_ne] at h
  intro hm
  have : n.contains '/' = true := by simpa using hm
  rw [this] at h
  exact Bool.noConfusion h.2

mutual
/-- The entries of a recursive walk that pass the test are the matching
regular files of the tree. -/
theorem walk_matching (p : Str) : ∀ cs : List Node, validNames cs = true →
    ((walk p cs).filter (fun e => e.2.isRegular && isValidFileType fileTypes e.1)).map
      (fun e => e.1) = matchingPaths p cs
  | [], _ => by simp [walk, matchingPaths]
  | c :: cs, h => by
    have hc : validNode c = true ∧ validNames cs = true := by
      simpa [validNames] using h
    simp only [walk, matchingPaths, List.filter_append, List.map_append]
    rw [walkNode_matching p c hc.1, walk_matching p cs hc.2]
theorem walkNode_matching (p : Str) : ∀ c : Node, validNode c = true →
    ((walkNode p c).filter (fun e => e.2.isRegular && isValidFileType fileTypes e.1)).map
      (fun e => e.1) = matchingPathsNode p c
  | .file n s, h => by
    have hn : '/' ∉ n := not_mem_of_validName n (by simpa [validNode] using h)
    simp only [walkNode, matchingPathsNode, List.filter_cons, Node.isRegular, Bool.true_and,
      isValidFileType_pathJoin p n hn]
    by_cases hm : matching n = true
    · simp [hm]
    · simp [hm]
  | .dir n cs, h => by
    have hc : validName n = true ∧ validNames cs = true := by
      simpa [validNode] using h
    simp only [walkNode, matchingPathsNode, List.filter_cons, Node.isRegular, Bool.false_and]
    simpa using walk_matching (pathJoin p n) cs hc.2
  | .other n, _ => by
    simp [walkNode, matchingPathsNode, List.filter_cons, Node.isRegular]
end

mutual
/-- There is one matching path for each matching regular file. -/
theorem length_matchingPaths (p : Str) : ∀ cs : List Node,
    (matchingPaths p cs).length = countFiles matching cs
  | [] => by simp [matchingPaths, countFiles]
  | c :: cs => by
    simp only [matchingPaths, countFiles, List.length_append]
    rw [length_matchingPathsNode p c, length_matchingPaths p cs]
theorem length_matchingPathsNode (p : Str) : ∀ c : Node,
    (matchingPathsNode p c).length = countFilesNode matching c
  | .file n s => by
    simp only [matchingPathsNode, countFilesNode]
    by_cases hm : matching n = true
    · simp [hm]
    · simp [hm]
  | .dir n cs => by
    simp only [matchingPathsNode, countFilesNode]
    exact length_matchingPaths (pathJoin p n) cs
  | .other n => by simp [matchingPathsNode, countFilesNode]
end

mutual
/-- Matching and non-matching regular files make up the regular files. -/
theorem countFiles_split (q : Str → Bool) : ∀ cs : List Node,
    countFiles q cs + countFiles (fun n => !q n) cs = countFiles (fun _ => true) cs
  | [] => by simp [countFiles]
  | c :: cs => by
    simp only [countFiles]
    have h1 := countFilesNode_split q c
    have h2 := countFiles_split q cs
    omega
theorem countFilesNode_split (q : Str → Bool) : ∀ c : Node,
    countFilesNode q c + countFilesNode (fun n => !q n) c = countFilesNode (fun _ => true) c
  | .file n s => by
    simp only [countFilesNode]
    by_cases hm : q n = true
    · simp [hm]
    · simp [hm]
  | .dir n cs => by
    simp only [countFilesNode]
    exact countFiles_split q cs
  | .other n => by simp [countFilesNode]
end

/-- The list collected in the directory branch. -/
theorem collectDir_eq (path : Str) (cs : List Node) (hv : validNames cs = true) :
    collectDir path cs = matchingPaths path cs := by
  unfold collectDir
  rw [foldl_pushIfValid, List.nil_append, walk_matching path cs hv]

/-- The directory part that `pathJoin` puts before a name. -/
theorem pathJoin_eq (d : Str) (hd : d ≠ []) :
    ∃ dp : Str, dp ≠ [] ∧ ∀ n, pathJoin d n = dp ++ n := by
  by_cases h : d.getLast? = some '/'
  · exact ⟨d, hd, fun n => by unfold pathJoin; rw [if_neg hd, if_pos h]⟩
  · refine ⟨d ++ ['/'], by simp, fun n => ?_⟩
    unfold pathJoin
    rw [if_neg hd, if_neg h]
    simp

/-- The path of an entry of an existing directory is not empty. -/
theorem pathJoin_ne_nil (d n : Str) (hd : d ≠ []) : pathJoin d n ≠ [] := by
  obtain ⟨dp, hdp, h⟩ := pathJoin_eq d hd
  rw [h]
  simp [hdp]

mutual
/-- Every path of a recursive walk of `p` starts with `p`. -/
theorem walk_extends (p : Str) (hp : p ≠ []) : ∀ cs : List Node,
    ∀ e ∈ walk p cs, ∃ r, e.1 = p ++ r
  | [], e, he => by simp [walk] at he
  | c :: cs, e, he => by
    simp only [walk, List.mem_append] at he
    rcases he with he | he
    · exact walkNode_extends p hp c e he
    · exact walk_extends p hp cs e he
theorem walkNode_extends (p : Str) (hp : p ≠ []) : ∀ c : Node,
    ∀ e ∈ walkNode p c, ∃ r, e.1 = p ++ r
  | .file n s, e, he => by
    obtain ⟨dp, _, h⟩ := pathJoin_eq p hp
    simp only [walkNode, List.mem_singleton] at he
    subst he
    unfold pathJoin
    split_ifs
    · contradiction
    · exact ⟨n, rfl⟩
    · exact ⟨'/' :: n, rfl⟩
  | .other n, e, he => by
    simp only [walkNode, List.mem_singleton] at he
    subst he
    unfold pathJoin
    split_ifs
    · contradiction
    · exact ⟨n, rfl⟩
    · exact ⟨'/' :: n, rfl⟩
  | .dir n cs, e, he => by
    have hj : ∃ r, pathJoin p n = p ++ r := by
      unfold pathJoin
      split_ifs
      · contradiction
      · exact ⟨n, rfl⟩
      · exact ⟨'/' :: n, rfl⟩
    simp only [walkNode, List.mem_cons] at he
    rcases he with he | he
    · subst he
      exact hj
    · obtain ⟨r, hr⟩ := walk_extends (pathJoin p n) (pathJoin_ne_nil p n hp) cs e he
      obtain ⟨r2, hr2⟩ := hj
      exact ⟨r2 ++ r, by rw [hr, hr2, List.append_assoc]⟩
end

/-- Every path of a recursive walk of a directory `p ++ n`, with `n` a valid
name, is `p ++ n`, a separator and more. -/
theorem walk_below (p n : Str) (hn : validName n = true) (cs : List Node) :
    ∀ e ∈ walk (p ++ n) cs, ∃ r, e.1 = p ++ (n ++ '/' :: r) := by
  have hne : n ≠ [] := by
    unfold validName at hn
    simp only [Bool.and_eq_true, bne_iff_ne] at hn
    exact hn.1
  have hsl : '/' ∉ n := not_mem_of_validName n hn
  have hpn : p ++ n ≠ [] := by simp [hne]
  have hlast : (p ++ n).getLast? ≠ some '/' := by
    intro h
    rw [List.getLast?_append_of_ne_nil p hne, List.getLast?_eq_getLast _ hne] at h
    have := List.getLast_mem hne
    rw [Option.some.inj h] at this
    exact hsl this
  have hj : ∀ m, pathJoin (p ++ n) m = p ++ (n ++ '/' :: m) := by
    intro m
    unfold pathJoin
    rw [if_neg hpn, if_neg hlast, List.append_assoc]
  induction cs with
  | nil => intro e he; simp [walk] at he
  | cons c cs ih =>
    intro e he
    simp only [walk, List.mem_append] at he
    rcases he with he | he
    · cases c with
      | file m s =>
        simp only [walkNode, List.mem_singleton] at he
        subst he
        exact ⟨m, hj m⟩
      | other m =>
        simp only [walkNode, List.mem_singleton] at he
        subst he
        exact ⟨m, hj m⟩
      | dir m gs =>
        simp only [walkNode, List.mem_cons] at he
        rcases he with he | he
        · subst he
          exact ⟨m, hj m⟩
        · obtain ⟨r, hr⟩ := walk_extends _ (pathJoin_ne_nil _ m hpn) gs e he
          refine ⟨m ++ r, ?_⟩
          rw [hr, hj m]
          simp
    · exact ih e he

/-- The paths appended for a directory line are those of the immediate
matching regular files. -/
theorem listDir_matching (d : Str) (cs : List Node)
    (hv : ∀ c ∈ cs, validName c.name = true) (acc : List Str) :
    (listDir d cs).foldl pushIfValid acc = acc ++ immediateMatching d cs := by
  rw [foldl_pushIfValid]
  congr 1
  unfold listDir immediateMatching
  induction cs with
  | nil => rfl
  | cons c cs ih =>
    have hc : '/' ∉ c.name := not_mem_of_validName _ (hv c (List.mem_cons_self _ _))
    have ih2 := ih (fun x hx => hv x (List.mem_cons_of_mem _ hx))
    simp only [List.map_cons, List.filter_cons, isValidFileType_pathJoin d c.name hc]
    by_cases hm : (c.isRegular && matching c.name) = true
    · simp only [hm, if_true, List.map_cons]
      rw [ih2]
    · simp only [hm, if_false]
      simp at hm
      simp only [Bool.false_eq_true, if_false]
      exact ih2

/-- No path below a subdirectory of `d` is the path of an immediate entry. -/
theorem nested_not_immediate (d : Str) (hd : d ≠ []) (cs : List Node)
    (hv : ∀ c ∈ cs, validName c.name = true) (sub : Str) (gs : List Node)
    (hsub : Node.dir sub gs ∈ cs) :
    ∀ e ∈ walk (pathJoin d sub) gs, e.1 ∉ immediateMatching d cs := by
  intro e he hmem
  obtain ⟨dp, _, hj⟩ := pathJoin_eq d hd
  have hvs : validName sub = true := hv _ hsub
  rw [hj sub] at he
  obtain ⟨r, hr⟩ := walk_below dp sub hvs gs e he
  unfold immediateMatching at hmem
  obtain ⟨c, hc, hce⟩ := List.mem_map.mp hmem
  have hc2 : c ∈ cs := (List.mem_filter.mp hc).1
  rw [hj c.name, hr] at hce
  have := List.append_cancel_left hce
  have hsl : '/' ∉ c.name := not_mem_of_validName _ (hv c hc2)
  apply hsl
  rw [this]
  simp

/-- What a line appends does not depend on the list collected so far. -/
theorem processLine_shift (fs : FS) (a b : List Str) (l : Str) :
    processLine fs (a ++ b) l = (processLine fs b l).map (fun x => a ++ x) := by
  unfold processLine
  by_cases hl : l = []
  · rw [if_pos hl, if_pos hl]; rfl
  · rw [if_neg hl, if_neg hl]
    cases hr : fs.resolve l with
    | error => rfl
    | missing => rfl
    | found nd =>
      cases nd with
      | file n s =>
        simp only [Option.map_some']
        split_ifs <;> simp
      | dir n cs =>
        simp only [Option.map_some']
        rw [foldl_pushIfValid, foldl_pushIfValid, List.append_assoc]
      | other n => rfl

/-- One step of the manifest loop. -/
theorem manifestLoop_cons (fs : FS) (l : Str) (ls : List Str) (acc : List Str) :
    manifestLoop fs (l :: ls) acc = (processLine fs acc l).bind (manifestLoop fs ls) := by
  rw [manifestLoop]
  cases processLine fs acc l <;> rfl

/-- What the lines append does not depend on the list collected so far. -/
theorem manifestLoop_shift (fs : FS) (ls : List Str) (a b : List Str) :
    manifestLoop fs ls (a ++ b) = (manifestLoop fs ls b).map (fun x => a ++ x) := by
  induction ls generalizing b with
  | nil => rfl
  | cons l ls ih =>
    rw [manifestLoop_cons, manifestLoop_cons, processLine_shift]
    cases processLine fs b l with
    | none => rfl
    | some c =>
      simp only [Option.map_some', Option.some_bind]
      exact ih c

/-- The manifest loop from a list is the loop from the empty list, after the
list. -/
theorem manifestLoop_acc (fs : FS) (ls : List Str) (acc : List Str) :
    manifestLoop fs ls acc = (collectManifest fs ls).map (fun x => acc ++ x) := by
  have := manifestLoop_shift fs ls acc []
  rw [List.append_nil] at this
  exact this

/-- The manifest loop over two parts runs the second part after the first,
unless the first was left by an exception. -/
theorem manifestLoop_append (fs : FS) (l1 l2 : List Str) (acc : List Str) :
    manifestLoop fs (l1 ++ l2) acc = (manifestLoop fs l1 acc).bind (manifestLoop fs l2) := by
  induction l1 generalizing acc with
  | nil => rfl
  | cons l ls ih =>
    rw [List.cons_append, manifestLoop_cons, manifestLoop_cons]
    cases processLine fs acc l with
    | none => rfl
    | some c =>
      simp only [Option.some_bind]
      exact ih c

/-- The list of a manifest in two parts is the two lists, one after the other. -/
theorem collectManifest_append (fs : FS) (l1 l2 : List Str) :
    collectManifest fs (l1 ++ l2) =
      (collectManifest fs l1).bind (fun a =>
        (collectManifest fs l2).map (fun b => a ++ b)) := by
  unfold collectManifest
  rw [manifestLoop_append]
  cases manifestLoop fs l1 [] with
  | none => rfl
  | some a =>
    simp only [Option.some_bind]
    exact manifestLoop_acc fs l2 a

/-- The list of a manifest starts with what its first line appends. -/
theorem collectManifest_cons (fs : FS) (l : Str) (ls : List Str) :
    collectManifest fs (l :: ls) =
      (processLine fs [] l).bind (fun a =>
        (collectManifest fs ls).map (fun b => a ++ b)) := by
  unfold collectManifest
  rw [manifestLoop_cons]
  cases processLine fs [] l with
  | none => rfl
  | some a =>
    simp only [Option.some_bind]
    exact manifestLoop_acc fs ls a

/-- The report leaves the collected list as it is. -/
theorem report_files (cfg : Config) (fs : FS) (ps : List Str) :
    (report cfg fs ps).files = ps := by
  unfold report
  simp only
  split_ifs <;> rfl

/-- The directory branch of `main`. -/
theorem main_dir (argv : List Str) (fs : FS) (n : Str) (cs : List Node)
    (hp : (config argv).inputFile ≠ [])
    (hd : fs.resolve (config argv).inputFile = .found (.dir n cs)) :
    main argv fs = report (config argv) fs (collectDir (config argv).inputFile cs) := by
  unfold main
  simp only [hp, if_false, hd]

/-- C3. Directory mode is recursive.  When the input path is a directory whose
tree has valid entry names, the list `main` collects is made of the paths of
the regular files with a matching name found at any depth: its length is the
number `N` of those files, whatever the number `M` of the other regular
files, and no directory or other entry is in it. -/
theorem directory_mode_recursive (argv : List Str) (fs : FS) (n : Str) (cs : List Node)
    (hp : (config argv).inputFile ≠ [])
    (hd : fs.resolve (config argv).inputFile = .found (.dir n cs))
    (hv : validNames cs = true) :
    (main argv fs).files = matchingPaths (config argv).inputFile cs ∧
    (main argv fs).files.length = countFiles matching cs ∧
    countFiles matching cs + countFiles (fun m => !matching m) cs =
      countFiles (fun _ => true) cs := by
  have h1 : (main argv fs).files = matchingPaths (config argv).inputFile cs := by
    rw [main_dir argv fs n cs hp hd, report_files, collectDir_eq _ _ hv]
  refine ⟨h1, ?_, countFiles_split matching cs⟩
  rw [h1, length_matchingPaths]

/-- C4. Manifest mode is not recursive.  A manifest line that names an existing
directory `d` whose entries have valid names appends exactly the paths of the
regular files with a matching name among the immediate entries of `d`; no
path found at any depth below a subdirectory of `d` is among them.  In the
list of a whole manifest these paths stand between the list of the lines
before and the list of the lines after, when the loop gets through them. -/
theorem manifest_line_not_recursive (fs : FS) (before after : List Str) (d n : Str)
    (cs : List Node) (hd : d ≠ []) (hr : fs.resolve d = .found (.dir n cs))
    (hv : ∀ c ∈ cs, validName c.name = true) :
    (∀ filePaths,
      processLine fs filePaths d = some (filePaths ++ immediateMatching d cs)) ∧
    collectManifest fs (before ++ d :: after) =
      (collectManifest fs before).bind (fun l1 =>
        (collectManifest fs after).map (fun l2 =>
          l1 ++ immediateMatching d cs ++ l2)) ∧
    (∀ sub gs, Node.dir sub gs ∈ cs →
      ∀ e ∈ walk (pathJoin d sub) gs, e.1 ∉ immediateMatching d cs) := by
  have h1 : ∀ filePaths,
      processLine fs filePaths d = some (filePaths ++ immediateMatching d cs) := by
    intro filePaths
    unfold processLine
    rw [if_neg hd, hr]
    simp only
    rw [listDir_matching d cs hv filePaths]
  refine ⟨h1, ?_, fun sub gs hsub => nested_not_immediate d hd cs hv sub gs hsub⟩
  rw [collectManifest_append, collectManifest_cons, h1, List.nil_append]
  cases collectManifest fs before with
  | none => rfl
  | some l1 =>
    cases collectManifest fs after with
    | none => rfl
    | some l2 => simp

/-! ## The report -/

/-- The data read for an existing regular file. -/
theorem getFileData_regular (fs : FS) (out app q : Str) (h : isRegularPath fs q = true) :
    getFileData fs out app q = some (filename q, sizeRead fs out app.length q) := by
  unfold isRegularPath at h
  unfold getFileData sizeRead sizeAt
  cases hr : fs.resolve q with
  | error => rw [hr] at h; cases h
  | missing => rw [hr] at h; cases h
  | found nd =>
    cases nd with
    | file n s => simp only
    | dir n cs => rw [hr] at h; cases h
    | other n => rw [hr] at h; cases h

/-- The size query throws on anything but an existing regular file. -/
theorem getFileData_none (fs : FS) (out app q : Str) (h : isRegularPath fs q = false) :
    getFileData fs out app q = none := by
  unfold isRegularPath at h
  unfold getFileData
  cases hr : fs.resolve q with
  | error => rfl
  | missing => rfl
  | found nd =>
    cases nd with
    | file n s => rw [hr] at h; cases h
    | dir n cs => rfl
    | other n => rfl

/-- What one turn of the report loop adds to each field. -/
theorem reportRow_fields (cfg : Config) (fs : FS) (w : Int) (st : Rep) (f : Str) (size : Nat) :
    (reportRow cfg fs w st f size).thrown = st.thrown ∧
    (reportRow cfg fs w st f size).total = (st.total + size) % 2 ^ 64 ∧
    (reportRow cfg fs w st f size).out =
      st.out ++ (if cfg.summaryOnly then []
        else setwLeft w f ++ humanReadableSize size ++ ['\n']) ∧
    (reportRow cfg fs w st f size).appended =
      st.appended ++ (if appending cfg fs
        then setwLeft w f ++ humanReadableSize size ++ ['\n'] else []) := by
  unfold reportRow appending
  by_cases hs : cfg.summaryOnly = true
  · simp [hs]
  · simp only [Bool.not_eq_true] at hs
    by_cases ho : cfg.outputFile = []
    · simp [hs, ho]
    · by_cases hc : fs.canAppend cfg.outputFile = true
      · simp [hs, ho, hc]
      · simp [hs, ho, hc]

/-- The entries the loop gets through, when the first one is a regular file. -/
theorem processed_cons_pos (fs : FS) (q : Str) (qs : List Str)
    (h : isRegularPath fs q = true) : processed fs (q :: qs) = q :: processed fs qs := by
  unfold processed
  rw [List.takeWhile_cons, if_pos h]

/-- The loop gets through nothing when the first size query throws. -/
theorem processed_cons_neg (fs : FS) (q : Str) (qs : List Str)
    (h : isRegularPath fs q = false) : processed fs (q :: qs) = [] := by
  unfold processed
  rw [List.takeWhile_cons, h]
  rfl

/-- What the report loop leaves in each field: the flag tells whether a size
query threw, and the total, the rows on the output and the rows appended to
the output file are those of the entries before that query. -/
theorem reportLoop_fields (cfg : Config) (fs : FS) (w : Int) :
    ∀ (ps : List Str) (st : Rep), st.total < 2 ^ 64 →
      (reportLoop cfg fs w ps st).thrown = (st.thrown || !ps.all (isRegularPath fs)) ∧
      (reportLoop cfg fs w ps st).total =
        (st.total + ((reads fs cfg.outputFile w (appending cfg fs) st.appended.length
          (processed fs ps)).map (fun r => r.1)).sum) % 2 ^ 64 ∧
      (reportLoop cfg fs w ps st).out =
        st.out ++ (if cfg.summaryOnly then []
          else ((reads fs cfg.outputFile w (appending cfg fs) st.appended.length
            (processed fs ps)).map (fun r => r.2)).flatten) ∧
      (reportLoop cfg fs w ps st).appended =
        st.appended ++ (if appending cfg fs
          then ((reads fs cfg.outputFile w (appending cfg fs) st.appended.length
            (processed fs ps)).map (fun r => r.2)).flatten else []) := by
  intro ps
  induction ps with
  | nil =>
    intro st ht
    have hm : (st.total + 0) % 2 ^ 64 = st.total := by
      rw [Nat.add_zero, Nat.mod_eq_of_lt ht]
    simp only [reportLoop, processed, List.takeWhile_nil, reads, List.map_nil, List.sum_nil,
      List.flatten_nil, ite_self, List.append_nil, List.all_nil, Bool.not_true, Bool.or_false,
      hm, and_self]
  | cons q qs ih =>
    intro st ht
    by_cases hq : isRegularPath fs q = true
    · obtain ⟨r1, r2, r3, r4⟩ := reportRow_fields cfg fs w st (filename q)
        (sizeRead fs cfg.outputFile st.appended.length q)
      have hlt : (reportRow cfg fs w st (filename q)
          (sizeRead fs cfg.outputFile st.appended.length q)).total < 2 ^ 64 := by
        rw [r2]; exact Nat.mod_lt _ (by norm_num)
      obtain ⟨i1, i2, i3, i4⟩ := ih _ hlt
      have hlen : (reportRow cfg fs w st (filename q)
          (sizeRead fs cfg.outputFile st.appended.length q)).appended.length =
          (if appending cfg fs = true then st.appended.length +
            (setwLeft w (filename q) ++
              humanReadableSize (sizeRead fs cfg.outputFile st.appended.length q) ++
              ['\n']).length
           else st.appended.length) := by
        rw [r4]
        split_ifs
        · rw [List.length_append]
        · rw [List.append_nil]
      have hstep : reportLoop cfg fs w (q :: qs) st =
          reportLoop cfg fs w qs (reportRow cfg fs w st (filename q)
            (sizeRead fs cfg.outputFile st.appended.length q)) := by
        rw [reportLoop, getFileData_regular fs _ _ q hq]
      rw [hstep, i1, i2, i3, i4, hlen, r1, r2, r3, r4, processed_cons_pos fs q qs hq]
      simp only [reads, List.map_cons, List.sum_cons, List.flatten_cons, List.all_cons, hq,
        Bool.true_and]
      refine ⟨trivial, ?_, ?_, ?_⟩
      · rw [Nat.mod_add_mod, Nat.add_assoc]
      · by_cases hs : cfg.summaryOnly = true
        · simp [hs]
        · simp [hs]
      · by_cases ha : appending cfg fs = true
        · simp [ha]
        · simp [ha]
    · simp only [Bool.not_eq_true] at hq
      have hstep : reportLoop cfg fs w (q :: qs) st = { st with thrown := true } := by
        rw [reportLoop, getFileData_none fs _ _ q hq]
      have hm : (st.total + 0) % 2 ^ 64 = st.total := by
        rw [Nat.add_zero, Nat.mod_eq_of_lt ht]
      rw [hstep, processed_cons_neg fs q qs hq]
      simp only [reads, List.map_nil, List.sum_nil, List.flatten_nil, ite_self,
        List.append_nil, List.all_cons, hq, Bool.false_and, Bool.not_false, Bool.or_true, hm,
        and_self]

/-- The report, field by field.  It ends with code 0 when every size query
succeeds, and is stopped by the exception of the first one that fails.  The
output is the header, the rows of the entries it got through and, when it got
through all of them, the total line; the same rows are appended to the output
file when it is written. -/
theorem report_spec (cfg : Config) (fs : FS) (ps : List Str) :
    (report cfg fs ps).exitCode = (if ps.all (isRegularPath fs) then some 0 else none) ∧
    (report cfg fs ps).out =
      header cfg (columnWidth ps) ++
        (if cfg.summaryOnly then [] else (rowsMade cfg fs ps).flatten) ++
        (if ps.all (isRegularPath fs)
         then totalLine ps.length ((sizesRead cfg fs ps).sum % 2 ^ 64) else []) ∧
    (report cfg fs ps).appended =
      (if appending cfg fs then (rowsMade cfg fs ps).flatten else []) ∧
    (report cfg fs ps).files = ps := by
  obtain ⟨f1, f2, f3, f4⟩ := reportLoop_fields cfg fs (columnWidth ps) ps
    ⟨header cfg (columnWidth ps), [], [], 0, false⟩ (by norm_num)
  simp only [Bool.false_or, Nat.zero_add, List.length_nil, List.nil_append] at f1 f2 f3 f4
  unfold report rowsMade sizesRead
  simp only [f1, f2, f3, f4]
  by_cases hall : ps.all (isRegularPath fs) = true
  · simp [hall]
  · simp [hall]

/-- The test of the report on a whole list. -/
theorem all_regular_iff (fs : FS) (ps : List Str) :
    ps.all (isRegularPath fs) = true ↔ AllRegular fs ps := by
  unfold AllRegular
  rw [List.all_eq_true]

/-- The loop gets through a list of existing regular files. -/
theorem processed_of_regular (fs : FS) (ps : List Str) (h : AllRegular fs ps) :
    processed fs ps = ps := by
  unfold processed
  exact takeWhile_all _ _ h

/-- The entries the loop gets through are entries of the list. -/
theorem processed_subset (fs : FS) (ps : List Str) : ∀ q ∈ processed fs ps, q ∈ ps := by
  intro q hq
  unfold processed at hq
  exact (List.takeWhile_sublist (isRegularPath fs)).subset hq

/-- Before anything is appended a size is read as it was before the run. -/
theorem sizeRead_zero (fs : FS) (out q : Str) : sizeRead fs out 0 q = sizeAt fs q := by
  unfold sizeRead
  split_ifs <;> rfl

/-- When nothing is appended the sizes read are those before the run. -/
theorem reads_no_growth (fs : FS) (out : Str) (w : Int) (ps : List Str) :
    reads fs out w false 0 ps = ps.map (fun q => (sizeAt fs q, rowText fs w q)) := by
  induction ps with
  | nil => rfl
  | cons q qs ih =>
    simp only [reads, sizeRead_zero, Bool.false_eq_true, if_false, List.map_cons, rowText]
    rw [ih]
    simp only [rowText]

/-- When no path names the output file the sizes read are those before the
run. -/
theorem reads_other_file (fs : FS) (out : Str) (w : Int) (grow : Bool) (ps : List Str)
    (h : ∀ q ∈ ps, fs.sameFile q out = false) (written : Nat) :
    reads fs out w grow written ps = ps.map (fun q => (sizeAt fs q, rowText fs w q)) := by
  induction ps generalizing written with
  | nil => rfl
  | cons q qs ih =>
    have hq : sizeRead fs out written q = sizeAt fs q := by
      unfold sizeRead
      rw [h q (List.mem_cons_self _ _)]
      rfl
    simp only [reads, hq, List.map_cons, rowText]
    rw [ih (fun x hx => h x (List.mem_cons_of_mem _ hx))]
    simp only [rowText]

/-- The sizes read and the rows made are those before the run when no row is
appended, or when no collected path names the output file. -/
theorem reads_static (cfg : Config) (fs : FS) (ps : List Str)
    (h : appending cfg fs = false ∨ ∀ q ∈ ps, fs.sameFile q cfg.outputFile = false) :
    sizesRead cfg fs ps = (processed fs ps).map (sizeAt fs) ∧
    rowsMade cfg fs ps = (processed fs ps).map (rowText fs (columnWidth ps)) := by
  unfold sizesRead rowsMade
  rcases h with h | h
  · rw [h, reads_no_growth]
    simp [List.map_map, Function.comp_def]
  · rw [reads_other_file fs _ _ _ _ (fun q hq => h q (processed_subset fs ps q hq))]
    simp [List.map_map, Function.comp_def]

/-- There is one row for each entry the loop gets through. -/
theorem reads_length (fs : FS) (out : Str) (w : Int) (grow : Bool) (ps : List Str)
    (written : Nat) : (reads fs out w grow written ps).length = ps.length := by
  induction ps generalizing written with
  | nil => rfl
  | cons q qs ih => simp only [reads, List.length_cons, ih]

/-- The entry of rank `i` is read after the first `i` rows were appended. -/
theorem reads_getElem (fs : FS) (out : Str) (w : Int) :
    ∀ (ps : List Str) (written i : Nat) (q : Str), ps[i]? = some q →
      (reads fs out w true written ps)[i]? =
        some (sizeRead fs out
            (written + (((reads fs out w true written ps).map (fun r => r.2)).take i).flatten.length) q,
          setwLeft w (filename q) ++
            humanReadableSize (sizeRead fs out
              (written +
                (((reads fs out w true written ps).map (fun r => r.2)).take i).flatten.length) q) ++
            ['\n']) := by
  intro ps
  induction ps with
  | nil => intro written i q h; simp at h
  | cons p ps ih =>
    intro written i q h
    cases i with
    | zero =>
      simp only [List.getElem?_cons_zero, Option.some.injEq] at h
      subst h
      simp [reads]
    | succ i =>
      simp only [List.getElem?_cons_succ] at h
      have := ih (written + (setwLeft w (filename p) ++
        humanReadableSize (sizeRead fs out written p) ++ ['\n']).length) i q h
      have hc : reads fs out w true written (p :: ps) =
          (sizeRead fs out written p,
            setwLeft w (filename p) ++ humanReadableSize (sizeRead fs out written p) ++ ['\n']) ::
          reads fs out w true (written + (setwLeft w (filename p) ++
            humanReadableSize (sizeRead fs out written p) ++ ['\n']).length) ps := by
        simp only [reads, if_true]
      rw [hc]
      simp only [List.getElem?_cons_succ, List.map_cons, List.take_succ_cons, List.flatten_cons]
      rw [this]
      have hl : ∀ (a : Str) (X : List Str), written + a.length + X.flatten.length =
          written + (a ++ X.flatten).length := by
        intro a X
        rw [List.length_append, Nat.add_assoc]
      rw [hl]

/-- In an appending run the row of rank `i` shows the size read after the
first `i` rows were appended. -/
theorem rowsMade_getElem (cfg : Config) (fs : FS) (ps : List Str)
    (ha : appending cfg fs = true) (i : Nat) (q : Str) (h : (processed fs ps)[i]? = some q) :
    (rowsMade cfg fs ps)[i]? =
      some (setwLeft (columnWidth ps) (filename q) ++
        humanReadableSize
          (if fs.sameFile q cfg.outputFile
           then sizeAt fs q + ((rowsMade cfg fs ps).take i).flatten.length
           else sizeAt fs q) ++ ['\n']) ∧
    (sizesRead cfg fs ps)[i]? =
      some (if fs.sameFile q cfg.outputFile
           then sizeAt fs q + ((rowsMade cfg fs ps).take i).flatten.length
           else sizeAt fs q) := by
  have := reads_getElem fs cfg.outputFile (columnWidth ps) (processed fs ps) 0 i q h
  unfold rowsMade sizesRead
  rw [ha]
  simp only [List.getElem?_map, this, Option.map_some', Nat.zero_add, sizeRead, and_self]

/-- The ways `main` ends: an early `return 1`, an exception before the
report, or the report over the collected list. -/
theorem main_cases (argv : List Str) (fs : FS) :
    (∃ msg, main argv fs = fail msg) ∨ main argv fs = aborted ∨
      main argv fs = report (config argv) fs (main argv fs).files := by
  unfold main
  simp only
  by_cases h1 : (config argv).inputFile = []
  · rw [if_pos h1]; exact Or.inl ⟨_, rfl⟩
  · rw [if_neg h1]
    cases hr : fs.resolve (config argv).inputFile with
    | error => exact Or.inr (Or.inl rfl)
    | missing => exact Or.inl ⟨_, rfl⟩
    | found nd =>
      cases nd with
      | file n s =>
        simp only
        by_cases h2 : lowerStr (extension (config argv).inputFile) ≠ ".txt".toList
        · rw [if_pos h2]; exact Or.inl ⟨_, rfl⟩
        · rw [if_neg h2]
          cases collectManifest fs (fs.lines (config argv).inputFile) with
          | none => exact Or.inr (Or.inl rfl)
          | some ps => simp only; rw [report_files]; exact Or.inr (Or.inr rfl)
      | dir n cs => simp only; rw [report_files]; exact Or.inr (Or.inr rfl)
      | other n => exact Or.inl ⟨_, rfl⟩

/-- The exit code of a report. -/
theorem report_exit_iff (cfg : Config) (fs : FS) (ps : List Str) :
    ((report cfg fs ps).exitCode = some 0 ↔ AllRegular fs ps) ∧
    ((report cfg fs ps).exitCode = some 0 ∨ (report cfg fs ps).exitCode = none) ∧
    (report cfg fs ps).exitCode ≠ some 1 := by
  rw [(report_spec cfg fs ps).1, ← all_regular_iff]
  by_cases h : ps.all (isRegularPath fs) = true
  · simp [h]
  · simp [h]

/-- A run that ends with code 0 went through the report. -/
theorem main_exit0 (argv : List Str) (fs : FS) (h : (main argv fs).exitCode = some 0) :
    main argv fs = report (config argv) fs (main argv fs).files ∧
    AllRegular fs (main argv fs).files := by
  rcases main_cases argv fs with ⟨msg, hm⟩ | hm | hm
  · rw [hm] at h; cases h
  · rw [hm] at h; cases h
  · refine ⟨hm, ?_⟩
    rw [hm] at h
    exact (report_exit_iff _ fs _).1.mp h

/-- The header label is filled up to one character less than the width. -/
theorem header_label (i o : Str) (w : Int) :
    header ⟨i, o, false⟩ w =
      '\n' :: (setwLeft (w - 1) "Filename".toList ++ "Size (bytes)".toList ++ ['\n'] ++
        (List.replicate (w + 12).toNat '-' ++ ['\n'])) := by
  unfold header setwLeft
  have h1 : ("\nFilename".toList.length : Int) = 9 := rfl
  have h2 : ("Filename".toList.length : Int) = 8 := rfl
  have h3 : "\nFilename".toList = '\n' :: "Filename".toList := rfl
  rw [h1, h2]
  have h4 : w - 1 - 8 = w - 9 := by ring
  rw [h4, h3]
  simp

/-- A run of a list is not longer than the list. -/
theorem takeWhile_length_le {α : Type} (q : α → Bool) (xs : List α) :
    (xs.takeWhile q).length ≤ xs.length := by
  induction xs with
  | nil => exact le_refl _
  | cons x xs ih =>
    rw [List.takeWhile_cons]
    split_ifs
    · simp only [List.length_cons]; omega
    · simp

/-- The file name of a path is not longer than the path. -/
theorem filename_length_le (p : Str) : (filename p).length ≤ p.length := by
  unfold filename
  rw [List.length_reverse]
  have h1 := takeWhile_length_le (fun c => c != '/') p.reverse
  rw [List.length_reverse] at h1
  exact h1

/-- The loop of `columnWidth` keeps the greatest length it has met. -/
theorem foldl_width_ge (ps : List Str) (m : Int) :
    m ≤ ps.foldl
      (fun maxPathLength path =>
        if toInt32 path.length > maxPathLength then toInt32 path.length
        else maxPathLength) m ∧
    ∀ q ∈ ps, toInt32 q.length ≤ ps.foldl
      (fun maxPathLength path =>
        if toInt32 path.length > maxPathLength then toInt32 path.length
        else maxPathLength) m := by
  induction ps generalizing m with
  | nil => exact ⟨le_refl m, fun q hq => absurd hq (List.not_mem_nil q)⟩
  | cons p ps ih =>
    simp only [List.foldl_cons]
    by_cases h : toInt32 p.length > m
    · rw [if_pos h]
      obtain ⟨i1, i2⟩ := ih (toInt32 p.length)
      refine ⟨le_trans (le_of_lt h) i1, fun q hq => ?_⟩
      rcases List.mem_cons.mp hq with rfl | hq
      · exact i1
      · exact i2 q hq
    · rw [if_neg h]
      obtain ⟨i1, i2⟩ := ih m
      refine ⟨i1, fun q hq => ?_⟩
      rcases List.mem_cons.mp hq with rfl | hq
      · exact le_trans (not_lt.mp h) i1
      · exact i2 q hq

/-- The part of C8 that holds: for a collected list whose paths are shorter
than `2 ^ 31` characters, no file name is longer than `columnWidth`, and the
file name of every row is filled up to exactly `columnWidth` characters. -/
theorem row_label_width (ps : List Str) (q : Str) (hq : q ∈ ps) (hlen : q.length < 2 ^ 31) :
    ((filename q).length : Int) ≤ columnWidth ps ∧
    ((setwLeft (columnWidth ps) (filename q)).length : Int) = columnWidth ps := by
  have h1 := filename_length_le q
  have h2 : toInt32 q.length = (q.length : Int) := by
    unfold toInt32
    have hm : q.length % 2 ^ 32 = q.length := Nat.mod_eq_of_lt (by omega)
    rw [hm, if_pos hlen]
  have h3 : toInt32 q.length ≤ columnWidth ps := (foldl_width_ge ps 0).2 q hq
  rw [h2] at h3
  have h4 : ((filename q).length : Int) ≤ columnWidth ps := by
    have : ((filename q).length : Int) ≤ (q.length : Int) := by exact_mod_cast h1
    exact le_trans this h3
  refine ⟨h4, ?_⟩
  unfold setwLeft
  rw [List.length_append, List.length_replicate]
  push_cast
  rw [Int.toNat_of_nonneg (by omega)]
  ring

/-- C8, at the directory `media` of the example filesystem.  The longest
collected path has 20 characters, so `columnWidth` is 20.  Each row has its
file name filled up to 20 characters; the header has `Filename` filled up to
19 characters only, because the newline written before it is counted in
the field: `Size (bytes)` starts at column 19, the sizes at column 20. -/
theorem header_column_off_by_one :
    columnWidth (main ["prog".toList, "media".toList] demoFS).files = 20 ∧
    (main ["prog".toList, "media".toList] demoFS).files =
      ["media/a.png".toList, "media/sub/b.MKV".toList, "media/sub/deep/c.bmp".toList] ∧
    (main ["prog".toList, "media".toList] demoFS).out =
      ['\n'] ++ ("Filename".toList ++ List.replicate 11 ' ') ++ "Size (bytes)".toList ++ ['\n'] ++
      List.replicate 32 '-' ++ ['\n'] ++
      ("a.png".toList ++ List.replicate 15 ' ') ++ "1.00 KB".toList ++ ['\n'] ++
      ("b.MKV".toList ++ List.replicate 15 ' ') ++ "1.00 KB".toList ++ ['\n'] ++
      ("c.bmp".toList ++ List.replicate 15 ' ') ++ "1.00 KB".toList ++ ['\n'] ++
      "\nFiles found: 3 Total file size: 3.00 KB".toList ∧
    ("Filename".toList ++ List.replicate 11 ' ').length = 19 ∧
    ("a.png".toList ++ List.replicate 15 ' ').length = 20 := by
  refine ⟨by decide, by decide, by decide, by decide, by decide⟩

/-- Sizes add up over concatenation. -/
theorem totalSize_append (fs : FS) (a b : List Str) :
    totalSize fs (a ++ b) = totalSize fs a + totalSize fs b := by
  simp [totalSize]

/-- The same path `k` times counts `k` times its size. -/
theorem totalSize_replicate (fs : FS) (q : Str) (k : Nat) :
    totalSize fs (List.replicate k q) = k * sizeAt fs q := by
  induction k with
  | zero => simp [totalSize]
  | succ k ih =>
    have : List.replicate (k + 1) q = [q] ++ List.replicate k q := by
      simp [List.replicate_succ]
    rw [this, totalSize_append, ih]
    simp [totalSize]
    ring

/-- A valid file named on `k` lines is collected `k` times. -/
theorem collectManifest_replicate (fs : FS) (line n : Str) (s k : Nat) (hl : line ≠ [])
    (hr : fs.resolve line = .found (.file n s))
    (hv : isValidFileType fileTypes line = true) :
    collectManifest fs (List.replicate k line) = some (List.replicate k line) := by
  induction k with
  | zero => rfl
  | succ k ih =>
    have h1 : processLine fs [] line = some [line] := by
      unfold processLine
      rw [if_neg hl, hr]
      simp only [hv, if_true, List.nil_append]
    rw [List.replicate_succ, collectManifest_cons, ih, h1]
    rfl

/-- C9, as amended.  A run that exits with code 0 ends its output, in both
modes, with the total line, which reports the number of entries of the
collected list and the readable form of the sum, reduced modulo `2 ^ 64`, of
the sizes read for the entries.  The size read for an entry is the size it
has before the run, to which the bytes appended so far are added when the
entry is the output file itself: the sum is the sum of the sizes of the
entries when no row is appended or when no entry is the output file, and it
is reported as it is when it is below `2 ^ 64`.  Nothing is deduplicated: the
lists of successive manifest lines are concatenated, sizes add up with
repetitions, and a valid file named on `k` lines is counted `k` times and
contributes `k` times its size. -/
theorem total_line_counts_repetitions :
    (∀ (argv : List Str) (fs : FS), (main argv fs).exitCode = some 0 →
      (∃ body, (main argv fs).out =
        body ++ ("\nFiles found: ".toList ++ Nat.toDigits 10 (main argv fs).files.length ++
          " Total file size: ".toList ++
          humanReadableSize
            ((sizesRead (config argv) fs (main argv fs).files).sum % 2 ^ 64))) ∧
      (sizesRead (config argv) fs (main argv fs).files).length =
        (main argv fs).files.length ∧
      ((appending (config argv) fs = false ∨
          ∀ q ∈ (main argv fs).files, fs.sameFile q (config argv).outputFile = false) →
        (sizesRead (config argv) fs (main argv fs).files).sum =
          totalSize fs (main argv fs).files) ∧
      (appending (config argv) fs = true →
        ∀ (i : Nat) (q : Str), (main argv fs).files[i]? = some q →
          (sizesRead (config argv) fs (main argv fs).files)[i]? =
            some (if fs.sameFile q (config argv).outputFile
              then sizeAt fs q +
                ((rowsMade (config argv) fs (main argv fs).files).take i).flatten.length
              else sizeAt fs q)) ∧
      ((sizesRead (config argv) fs (main argv fs).files).sum < 2 ^ 64 →
        ∃ body, (main argv fs).out =
          body ++ ("\nFiles found: ".toList ++ Nat.toDigits 10 (main argv fs).files.length ++
            " Total file size: ".toList ++
            humanReadableSize (sizesRead (config argv) fs (main argv fs).files).sum))) ∧
    (∀ (fs : FS) (l1 l2 : List Str),
      collectManifest fs (l1 ++ l2) =
        (collectManifest fs l1).bind (fun a =>
          (collectManifest fs l2).map (fun b => a ++ b))) ∧
    (∀ (fs : FS) (a b : List Str), totalSize fs (a ++ b) = totalSize fs a + totalSize fs b) ∧
    (∀ (fs : FS) (line n : Str) (s k : Nat), line ≠ [] →
      fs.resolve line = .found (.file n s) → isValidFileType fileTypes line = true →
      collectManifest fs (List.replicate k line) = some (List.replicate k line) ∧
      totalSize fs (List.replicate k line) = k * s) := by
  refine ⟨?_, collectManifest_append, totalSize_append, ?_⟩
  · intro argv fs h0
    obtain ⟨hm, hreg⟩ := main_exit0 argv fs h0
    have hout := (report_spec (config argv) fs (main argv fs).files).2.1
    rw [← hm] at hout
    rw [(all_regular_iff fs _).mpr hreg, if_pos rfl] at hout
    obtain ⟨body, hb⟩ : ∃ body, (main argv fs).out =
        body ++ totalLine (main argv fs).files.length
          ((sizesRead (config argv) fs (main argv fs).files).sum % 2 ^ 64) := ⟨_, hout⟩
    refine ⟨⟨body, hb⟩, ?_, ?_, ?_, fun hlt => ⟨body, ?_⟩⟩
    · unfold sizesRead
      rw [List.length_map, reads_length, processed_of_regular fs _ hreg]
    · intro hst
      rw [(reads_static (config argv) fs _ hst).1, processed_of_regular fs _ hreg]
      rfl
    · intro ha i q hq
      rw [← processed_of_regular fs _ hreg] at hq
      exact (rowsMade_getElem (config argv) fs _ ha i q hq).2
    · rw [hb, Nat.mod_eq_of_lt hlt]
      rfl
  · intro fs line n s k hl hr hv
    refine ⟨collectManifest_replicate fs line n s k hl hr hv, ?_⟩
    rw [totalSize_replicate]
    unfold sizeAt
    rw [hr]

/-- C9, at the manifest `both.txt` with the output file `out.png`, which is
one of the two collected entries: `a.png` is read at 1024 bytes, and
`out.png`, of 5 bytes before the run, at 20 bytes after the row of `a.png`
was appended to it; the total line reports 1044 bytes. -/
theorem total_line_counts_repetitions_witness :
    (main ["prog".toList, "both.txt".toList, "--output".toList, "out.png".toList]
      demoFS).exitCode = some 0 ∧
    (main ["prog".toList, "both.txt".toList, "--output".toList, "out.png".toList]
      demoFS).files = ["a.png".toList, "out.png".toList] ∧
    sizesRead (config ["prog".toList, "both.txt".toList, "--output".toList, "out.png".toList])
      demoFS ["a.png".toList, "out.png".toList] = [1024, 20] ∧
    (main ["prog".toList, "both.txt".toList, "--output".toList, "out.png".toList]
      demoFS).out =
      "\nFilenameSize (bytes)\n-------------------\na.png  1.00 KB\nout.png20.00 B\n\nFiles found: 2 Total file size: 1.02 KB".toList ∧
    ∃ body, (main ["prog".toList, "both.txt".toList, "--output".toList, "out.png".toList]
        demoFS).out =
      body ++ ("\nFiles found: ".toList ++
        Nat.toDigits 10 (main ["prog".toList, "both.txt".toList, "--output".toList,
          "out.png".toList] demoFS).files.length ++
        " Total file size: ".toList ++
        humanReadableSize
          ((sizesRead (config ["prog".toList, "both.txt".toList, "--output".toList,
              "out.png".toList]) demoFS
            (main ["prog".toList, "both.txt".toList, "--output".toList, "out.png".toList]
              demoFS).files).sum % 2 ^ 64)) :=
  ⟨by decide, by decide, by decide, by decide,
    (total_line_counts_repetitions.1
      ["prog".toList, "both.txt".toList, "--output".toList, "out.png".toList] demoFS
      (by decide)).1⟩

/-- C9 as stated fails when the sum of the sizes reaches `2 ^ 64`.  The
manifest `big.txt` names the file `big.mkv` of `2 ^ 62` bytes on four lines:
the sum of the sizes of the four entries is `2 ^ 64`, and the total line
reports `0.00 B`, not the readable form of the sum. -/
theorem total_line_wraps :
    (main ["prog".toList, "big.txt".toList, "--summary-only".toList] demoFS).exitCode = some 0 ∧
    (main ["prog".toList, "big.txt".toList, "--summary-only".toList] demoFS).files =
      List.replicate 4 "big.mkv".toList ∧
    totalSize demoFS
      (main ["prog".toList, "big.txt".toList, "--summary-only".toList] demoFS).files =
        4 * 2 ^ 62 ∧
    (main ["prog".toList, "big.txt".toList, "--summary-only".toList] demoFS).out =
      "\nFiles found: 4 Total file size: 0.00 B".toList ∧
    "\nFiles found: ".toList ++ Nat.toDigits 10 4 ++ " Total file size: ".toList ++
        humanReadableSize (4 * 2 ^ 62) =
      "\nFiles found: 4 Total file size: 17179869184.00 GB".toList ∧
    ¬ ∃ body, (main ["prog".toList, "big.txt".toList, "--summary-only".toList] demoFS).out =
      body ++ ("\nFiles found: ".toList ++ Nat.toDigits 10 4 ++ " Total file size: ".toList ++
        humanReadableSize (totalSize demoFS
          (main ["prog".toList, "big.txt".toList, "--summary-only".toList] demoFS).files)) := by
  refine ⟨by decide, by decide, by decide, by decide, by decide, ?_⟩
  rintro ⟨body, hb⟩
  have hlen := congrArg List.length hb
  have h1 : (main ["prog".toList, "big.txt".toList, "--summary-only".toList] demoFS).out.length
      = 39 := by decide
  have h2 : ("\nFiles found: ".toList ++ Nat.toDigits 10 4 ++ " Total file size: ".toList ++
        humanReadableSize (totalSize demoFS
          (main ["prog".toList, "big.txt".toList, "--summary-only".toList] demoFS).files)).length
      = 50 := by decide
  rw [List.length_append, h1, h2] at hlen
  omega

/-- C10, as amended.  When the output path is not empty, `--summary-only` is
not set and the output file can be opened for appending, the content of the
output file after the run is its content before the run followed by one line
for each collected entry the report gets through, in the order of the list:
every entry in a run that exits with code 0, and otherwise those before the
first entry whose size query fails.  Each line is the file name filled up to
`columnWidth`, the readable form of the size read for the entry, and a
newline; the size read is the size the entry has before the run, to which the
bytes appended so far are added when the entry is the output file itself.
These are the rows of the console, which stand there between the header with
its separator and the total line.  When the output path is empty,
`--summary-only` is set or the file cannot be opened, the file is left as it
was. -/
theorem output_file_rows (argv : List Str) (fs : FS) (before : Str) :
    ((config argv).outputFile ≠ [] → (config argv).summaryOnly = false →
      fs.canAppend (config argv).outputFile = true →
      fileAfter before (main argv fs) =
        before ++ (rowsMade (config argv) fs (main argv fs).files).flatten) ∧
    (rowsMade (config argv) fs (main argv fs).files).length =
      (processed fs (main argv fs).files).length ∧
    ((main argv fs).exitCode = some 0 →
      processed fs (main argv fs).files = (main argv fs).files) ∧
    ((appending (config argv) fs = false ∨
        ∀ q ∈ (main argv fs).files, fs.sameFile q (config argv).outputFile = false) →
      rowsMade (config argv) fs (main argv fs).files =
        (processed fs (main argv fs).files).map (fun q =>
          setwLeft (columnWidth (main argv fs).files) (filename q) ++
            humanReadableSize (sizeAt fs q) ++ ['\n'])) ∧
    (appending (config argv) fs = true →
      ∀ (i : Nat) (q : Str), (processed fs (main argv fs).files)[i]? = some q →
        (rowsMade (config argv) fs (main argv fs).files)[i]? =
          some (setwLeft (columnWidth (main argv fs).files) (filename q) ++
            humanReadableSize
              (if fs.sameFile q (config argv).outputFile
               then sizeAt fs q +
                 ((rowsMade (config argv) fs (main argv fs).files).take i).flatten.length
               else sizeAt fs q) ++ ['\n'])) ∧
    ((config argv).summaryOnly = false → (main argv fs).exitCode = some 0 →
      (main argv fs).out =
        header (config argv) (columnWidth (main argv fs).files) ++
          (rowsMade (config argv) fs (main argv fs).files).flatten ++
          totalLine (main argv fs).files.length
            ((sizesRead (config argv) fs (main argv fs).files).sum % 2 ^ 64)) ∧
    (((config argv).outputFile = [] ∨ (config argv).summaryOnly = true ∨
        fs.canAppend (config argv).outputFile = false) →
      fileAfter before (main argv fs) = before) := by
  have happ : (main argv fs).appended =
      (if appending (config argv) fs then
        (rowsMade (config argv) fs (main argv fs).files).flatten else []) := by
    rcases main_cases argv fs with ⟨msg, hm⟩ | hm | hm
    · rw [hm]
      simp [fail, rowsMade, processed, reads]
    · rw [hm]
      simp [aborted, rowsMade, processed, reads]
    · have := (report_spec (config argv) fs (main argv fs).files).2.2.1
      rw [← hm] at this
      exact this
  refine ⟨?_, ?_, ?_, ?_, ?_, ?_, ?_⟩
  · intro ho hs hc
    have ha : appending (config argv) fs = true := by
      unfold appending
      simp [hs, ho, hc]
    unfold fileAfter
    rw [happ, ha, if_pos rfl]
  · unfold rowsMade
    rw [List.length_map, reads_length]
  · intro h0
    exact processed_of_regular fs _ (main_exit0 argv fs h0).2
  · intro hst
    rw [(reads_static (config argv) fs _ hst).2]
    rfl
  · intro ha i q hq
    exact (rowsMade_getElem (config argv) fs _ ha i q hq).1
  · intro hs h0
    obtain ⟨hm, hreg⟩ := main_exit0 argv fs h0
    have hout := (report_spec (config argv) fs (main argv fs).files).2.1
    rw [← hm] at hout
    rw [(all_regular_iff fs _).mpr hreg, if_pos rfl, hs] at hout
    exact hout
  · intro h
    have ha : appending (config argv) fs = false := by
      unfold appending
      rcases h with h | h | h
      · simp [h]
      · simp [h]
      · simp [h]
    unfold fileAfter
    rw [happ, ha]
    simp

/-- C10, at the directory `media` with the output file `report.log`, and at
the manifest `both.txt` with the output file `out.png`, which is one of the
collected entries and is read after the first row was appended to it. -/
theorem output_file_rows_witness :
    (main ["prog".toList, "media".toList, "--output".toList, "report.log".toList]
      demoFS).exitCode = some 0 ∧
    fileAfter "old\n".toList
        (main ["prog".toList, "media".toList, "--output".toList, "report.log".toList] demoFS) =
      "old\na.png               1.00 KB\nb.MKV               1.00 KB\nc.bmp               1.00 KB\n".toList ∧
    fileAfter "12345".toList
        (main ["prog".toList, "both.txt".toList, "--output".toList, "out.png".toList] demoFS) =
      "12345a.png  1.00 KB\nout.png20.00 B\n".toList ∧
    fileAfter "old\n".toList
        (main ["prog".toList, "vault".toList, "--output".toList, "report.log".toList] demoFS) =
      "old\na.png             1.00 KB\n".toList := by
  have h1 := (output_file_rows
    ["prog".toList, "media".toList, "--output".toList, "report.log".toList] demoFS
    "old\n".toList).1 (by decide) (by decide) (by decide)
  have h2 := (output_file_rows
    ["prog".toList, "both.txt".toList, "--output".toList, "out.png".toList] demoFS
    "12345".toList).1 (by decide) (by decide) (by decide)
  have h3 := (output_file_rows
    ["prog".toList, "vault".toList, "--output".toList, "report.log".toList] demoFS
    "old\n".toList).1 (by decide) (by decide) (by decide)
  refine ⟨by decide, ?_, ?_, ?_⟩
  · rw [h1]; decide
  · rw [h2]; decide
  · rw [h3]; decide

/-- C10 as stated fails when the output file cannot be opened.  With the
output path `locked.log`, which cannot be opened for appending, the run over
`media` collects three entries and prints three rows, and the file is left
as it was: its content is not followed by the three lines. -/
theorem output_file_locked :
    (config ["prog".toList, "media".toList, "--output".toList,
      "locked.log".toList]).outputFile = "locked.log".toList ∧
    (config ["prog".toList, "media".toList, "--output".toList,
      "locked.log".toList]).summaryOnly = false ∧
    (main ["prog".toList, "media".toList, "--output".toList, "locked.log".toList]
      demoFS).exitCode = some 0 ∧
    (main ["prog".toList, "media".toList, "--output".toList, "locked.log".toList]
      demoFS).files.length = 3 ∧
    fileAfter "old\n".toList
        (main ["prog".toList, "media".toList, "--output".toList, "locked.log".toList] demoFS) =
      "old\n".toList ∧
    fileAfter "old\n".toList
        (main ["prog".toList, "media".toList, "--output".toList, "locked.log".toList] demoFS) ≠
      "old\n".toList ++
        (main ["prog".toList, "media".toList, "--output".toList, "locked.log".toList]
          demoFS).files.flatMap (fun q =>
            setwLeft (columnWidth (main ["prog".toList, "media".toList, "--output".toList,
                "locked.log".toList] demoFS).files) (filename q) ++
              humanReadableSize (sizeAt demoFS q) ++ ['\n']) := by
  refine ⟨by decide, by decide, by decide, by decide, by decide, by decide⟩

/-- C2, at 5 TiB: three divisions, and the unit stays `GB`. -/
theorem humanReadableSize_units_witness :
    (5497558138880 : Nat) < 2 ^ 53 ∧
    humanReadableSize 5497558138880 = "5120.00 GB".toList ∧
    ∃ (k : Nat) (v : Dbl),
      k = (if 5497558138880 < 1024 then 0 else if 5497558138880 < 1024 ^ 2 then 1
            else if 5497558138880 < 1024 ^ 3 then 2 else 3) ∧
      v.toRat = ((5497558138880 : Nat) : ℚ) / 1024 ^ k ∧
      hrLoop (units.length - 1) (toDouble 5497558138880) 0 = (v, k) ∧
      |(cents v : ℚ) - 100 * (((5497558138880 : Nat) : ℚ) / 1024 ^ k)| ≤ 1 / 2 ∧
      humanReadableSize 5497558138880 =
        Nat.toDigits 10 (cents v / 100) ++
          ['.', Nat.digitChar (cents v % 100 / 10), Nat.digitChar (cents v % 10)] ++
          [' '] ++ units.getD k [] :=
  ⟨by decide, by decide, humanReadableSize_units.1 5497558138880 (by decide)⟩

/-- C3, at the directory `media`: three matching files, at depths one, two
and three, and two other files. -/
theorem directory_mode_recursive_witness :
    (config ["prog".toList, "media".toList]).inputFile ≠ [] ∧
    demoFS.resolve (config ["prog".toList, "media".toList]).inputFile =
      .found (.dir "media".toList mediaEntries) ∧
    validNames mediaEntries = true ∧
    (main ["prog".toList, "media".toList] demoFS).files.length = 3 ∧
    countFiles (fun m => !matching m) mediaEntries = 2 :=
  ⟨by decide, rfl, by decide,
    ((directory_mode_recursive ["prog".toList, "media".toList] demoFS "media".toList
      mediaEntries (by decide) rfl (by decide)).2.1).trans (by decide),
    by decide⟩

/-- C4, at a manifest line `media`: `media/a.png` is appended, and
`media/sub/deep/c.bmp`, two levels below, is not. -/
theorem manifest_line_not_recursive_witness :
    "media".toList ≠ [] ∧
    demoFS.resolve "media".toList = .found (.dir "media".toList mediaEntries) ∧
    collectManifest demoFS ([[]] ++ "media".toList :: ["missing.png".toList]) =
      some ([] ++ ["media/a.png".toList] ++ []) ∧
    "media/sub/deep/c.bmp".toList ∉ immediateMatching "media".toList mediaEntries :=
  ⟨by decide, rfl,
    ((manifest_line_not_recursive demoFS [[]] ["missing.png".toList] "media".toList
      "media".toList mediaEntries (by decide) rfl (by decide)).2.1).trans (by decide),
    (manifest_line_not_recursive demoFS [[]] ["missing.png".toList] "media".toList
      "media".toList mediaEntries (by decide) rfl (by decide)).2.2 "sub".toList subEntries
      (List.Mem.tail _ (List.Mem.tail _ (List.Mem.head _)))
      ("media/sub/deep/c.bmp".toList, Node.file "c.bmp".toList 1024)
      (List.Mem.tail _ (List.Mem.tail _ (List.Mem.head _)))⟩

end FileSummariser
